import Mathlib

/-!
Verification of the midpoint-displacement terrain generator
(`src/midpoint_displacement_2d.py`).

The Python function is embedded shallowly:
* the numpy `heightmap` becomes a total function `Grid := Nat → Nat → Int`
  (the array holds integer-valued float64s: every value is built from
  integer seeds, integer floor division and integer noise, so `Int` with
  floor division `Int.fdiv` reproduces the arithmetic exactly);
* a queue entry `(x0, y0, x1, y1, roughness)` becomes the structure `Region`;
* `random.randint(lo, hi)` becomes an abstract stateful source
  `next : σ → Int → Int → Int × σ` threaded explicitly; `my_randint` mirrors
  the nested helper of the source;
* the `while len(q) != 0` loop becomes the fuel-indexed `drainF`, which
  returns `none` when the fuel runs out before the queue empties and
  otherwise the final grid, the final source state and the list of
  processed regions in dequeue (FIFO) order.
-/

namespace MidpointDisplacement

/-- The heightmap buffer, addressed as `g row col` (the Python code indexes
`heightmap[y, x]`). Cells never written stay at the initial `0`. -/
abbrev Grid : Type := Nat → Nat → Int

/-- One work-queue entry `(x0, y0, x1, y1, roughness)` of the source:
top-left corner `(x0, y0)`, bottom-right corner `(x1, y1)` in cartesian
coordinates, plus the current noise amplitude. -/
structure Region where
  x0 : Nat
  y0 : Nat
  x1 : Nat
  y1 : Nat
  roughness : Int
  deriving DecidableEq

/-- In-place update `heightmap[row, col] = v`. -/
def setCell (g : Grid) (row col : Nat) (v : Int) : Grid :=
  fun a b => if a = row ∧ b = col then v else g a b

/-- `my_randint(roughness) = random.randint(-roughness, roughness)`,
threaded through the abstract source state. -/
def my_randint {σ : Type} (next : σ → Int → Int → Int × σ) (s : σ)
    (roughness : Int) : Int × σ :=
  next s (-roughness) roughness

/-- The four grid cells a region reads: `heightmap[y0,x0]`, `heightmap[y0,x1]`,
`heightmap[y1,x0]`, `heightmap[y1,x1]`, as `(row, col)` pairs. -/
def readsOf (r : Region) : List (Nat × Nat) :=
  [(r.y0, r.x0), (r.y0, r.x1), (r.y1, r.x0), (r.y1, r.x1)]

/-- The five grid cells a region writes (left, right, top, bottom, center
midpoints), as `(row, col)` pairs, in the order of the source. -/
def writesOf (r : Region) : List (Nat × Nat) :=
  let cy := (r.y0 + r.y1) / 2
  let cx := (r.x0 + r.x1) / 2
  [(cy, r.x0), (cy, r.x1), (r.y0, cx), (r.y1, cx), (cy, cx)]

/-- The four child regions enqueued by `if y1 - y0 > 2`, with the halved
roughness (`roughness //= 2`, Python floor division). -/
def childrenOf (r : Region) : List Region :=
  if r.y1 - r.y0 > 2 then
    let cy := (r.y0 + r.y1) / 2
    let cx := (r.x0 + r.x1) / 2
    let rough2 := Int.fdiv r.roughness 2
    [⟨r.x0, r.y0, cx, cy, rough2⟩, ⟨cx, r.y0, r.x1, cy, rough2⟩,
     ⟨r.x0, cy, cx, r.y1, rough2⟩, ⟨cx, cy, r.x1, r.y1, rough2⟩]
  else []

/-- The body of one loop iteration: read the four corners, then write the
five midpoints in the source's order (left, right, top, bottom, center),
each with an independent noise draw; `//` on the integer-valued floats is
floor division, i.e. `Int.fdiv`. -/
def processRegion {σ : Type} (next : σ → Int → Int → Int × σ) (g : Grid)
    (s : σ) (r : Region) : Grid × σ :=
  let cy := (r.y0 + r.y1) / 2
  let cx := (r.x0 + r.x1) / 2
  let top_left := g r.y0 r.x0
  let top_right := g r.y0 r.x1
  let bottom_left := g r.y1 r.x0
  let bottom_right := g r.y1 r.x1
  let e1 := my_randint next s r.roughness
  let g1 := setCell g cy r.x0 (Int.fdiv (top_left + bottom_left) 2 + e1.1)
  let e2 := my_randint next e1.2 r.roughness
  let g2 := setCell g1 cy r.x1 (Int.fdiv (top_right + bottom_right) 2 + e2.1)
  let e3 := my_randint next e2.2 r.roughness
  let g3 := setCell g2 r.y0 cx (Int.fdiv (top_left + top_right) 2 + e3.1)
  let e4 := my_randint next e3.2 r.roughness
  let g4 := setCell g3 r.y1 cx (Int.fdiv (bottom_left + bottom_right) 2 + e4.1)
  let e5 := my_randint next e4.2 r.roughness
  let g5 := setCell g4 cy cx
    (Int.fdiv (top_left + bottom_left + top_right + bottom_right) 4 + e5.1)
  (g5, e5.2)

/-- The `while len(q) != 0` drain loop, fuel-indexed: `none` means the fuel
ran out before the queue emptied; `some (g, s, tr)` means the queue emptied,
with final grid `g`, final source state `s`, and `tr` the processed regions
in FIFO order. -/
def drainF {σ : Type} (next : σ → Int → Int → Int × σ) :
    Nat → Grid → σ → List Region → Option (Grid × σ × List Region)
  | _, g, s, [] => some (g, s, [])
  | 0, _, _, _ :: _ => none
  | fuel + 1, g, s, r :: q =>
    (drainF next fuel (processRegion next g s r).1 (processRegion next g s r).2
        (q ++ childrenOf r)).map
      fun x => (x.1, x.2.1, r :: x.2.2)

/-- Exact number of regions processed for a root of side `2 ^ n`
(`1` for `n ≤ 1`, else `1 + 4 · fuelFor (n-1)`); used as the drain fuel. -/
def fuelFor : Nat → Nat
  | 0 => 1
  | 1 => 1
  | n + 2 => 1 + 4 * fuelFor (n + 1)

/-- The whole Python function `midpoint_displacement_2d(n, roughness)`:
`size = 2^n + 1`, zero grid, the four corners seeded by
`random.randint(0, 256)` in source order, root region
`(0, 0, size-1, size-1, roughness)`, then the drain loop. -/
def midpoint_displacement_2d {σ : Type} (next : σ → Int → Int → Int × σ)
    (n : Nat) (roughness : Int) (s : σ) : Option (Grid × σ × List Region) :=
  let size := 2 ^ n + 1
  let d1 := next s 0 256
  let g1 := setCell (fun _ _ => 0) 0 0 d1.1
  let d2 := next d1.2 0 256
  let g2 := setCell g1 0 (size - 1) d2.1
  let d3 := next d2.2 0 256
  let g3 := setCell g2 (size - 1) 0 d3.1
  let d4 := next d3.2 0 256
  let g4 := setCell g3 (size - 1) (size - 1) d4.1
  drainF next (fuelFor n) g4 d4.2 [⟨0, 0, size - 1, size - 1, roughness⟩]

/-- Final grid of a run (`0`-grid for the unreachable out-of-fuel case). -/
def gridOf {σ : Type} (o : Option (Grid × σ × List Region)) : Grid :=
  match o with
  | some x => x.1
  | none => fun _ _ => 0

/-- Trace of processed regions of a run, in FIFO order. -/
def traceOf {σ : Type} (o : Option (Grid × σ × List Region)) : List Region :=
  match o with
  | some x => x.2.2
  | none => []

/-- The four `(row, col)` corner positions of the `(2^n + 1)`-sided grid. -/
def cornerCells (n : Nat) : List (Nat × Nat) :=
  [(0, 0), (0, 2 ^ n), (2 ^ n, 0), (2 ^ n, 2 ^ n)]

/-- Number of regions in the subdivision tree of a region of (y-)side `d`. -/
def regionWeight (d : Nat) : Nat :=
  if _h : d ≤ 2 then 1
  else 1 + 2 * regionWeight (d / 2) + 2 * regionWeight (d - d / 2)
  termination_by d
  decreasing_by
  · omega
  · omega

/-- Total tree size of all regions in a queue. -/
def queueWeight (q : List Region) : Nat :=
  (q.map fun r => regionWeight (r.y1 - r.y0)).sum

/-- All `(row, col)` cells written by a region and its descendants. -/
def descWrites (r : Region) : List (Nat × Nat) :=
  if _h : r.y1 - r.y0 > 2 then
    let cy := (r.y0 + r.y1) / 2
    let cx := (r.x0 + r.x1) / 2
    let rough2 := Int.fdiv r.roughness 2
    writesOf r ++ descWrites ⟨r.x0, r.y0, cx, cy, rough2⟩
      ++ descWrites ⟨cx, r.y0, r.x1, cy, rough2⟩
      ++ descWrites ⟨r.x0, cy, cx, r.y1, rough2⟩
      ++ descWrites ⟨cx, cy, r.x1, r.y1, rough2⟩
  else writesOf r
  termination_by r.y1 - r.y0
  decreasing_by
  · omega
  · omega
  · omega
  · omega

/-- Modelled from the spec: the noise-free degenerate algorithm of §8
("every midpoint equals the exact floor-average of its neighbors with zero
added noise") — one region step with the averages only. Refinement target
for the `roughness = 0` claim. -/
def processRegionAvg (g : Grid) (r : Region) : Grid :=
  let cy := (r.y0 + r.y1) / 2
  let cx := (r.x0 + r.x1) / 2
  let top_left := g r.y0 r.x0
  let top_right := g r.y0 r.x1
  let bottom_left := g r.y1 r.x0
  let bottom_right := g r.y1 r.x1
  let g1 := setCell g cy r.x0 (Int.fdiv (top_left + bottom_left) 2)
  let g2 := setCell g1 cy r.x1 (Int.fdiv (top_right + bottom_right) 2)
  let g3 := setCell g2 r.y0 cx (Int.fdiv (top_left + top_right) 2)
  let g4 := setCell g3 r.y1 cx (Int.fdiv (bottom_left + bottom_right) 2)
  setCell g4 cy cx (Int.fdiv (top_left + bottom_left + top_right + bottom_right) 4)

/-- Modelled from the spec: the drain loop of the noise-free degenerate
algorithm (same queue discipline, midpoints are pure floor-averages). -/
def drainAvgF : Nat → Grid → List Region → Grid
  | _, g, [] => g
  | 0, g, _ :: _ => g
  | fuel + 1, g, r :: q => drainAvgF fuel (processRegionAvg g r) (q ++ childrenOf r)

/-- Modelled from the spec: the whole run with zero noise — corners seeded
from the same random source, every midpoint the exact floor-average of its
corner neighbors. -/
def midpoint_displacement_2d_noNoise {σ : Type} (next : σ → Int → Int → Int × σ)
    (n : Nat) (s : σ) : Grid :=
  let size := 2 ^ n + 1
  let d1 := next s 0 256
  let g1 := setCell (fun _ _ => 0) 0 0 d1.1
  let d2 := next d1.2 0 256
  let g2 := setCell g1 0 (size - 1) d2.1
  let d3 := next d2.2 0 256
  let g3 := setCell g2 (size - 1) 0 d3.1
  let d4 := next d3.2 0 256
  let g4 := setCell g3 (size - 1) (size - 1) d4.1
  drainAvgF (fuelFor n) g4 [⟨0, 0, size - 1, size - 1, 0⟩]

/-- A concrete deterministic random source: a pre-recorded stream of draws,
each clamped into the requested interval (an empty stream yields the clamp
of `0`). -/
def streamNext : List Int → Int → Int → Int × List Int
  | [], lo, hi => (max lo (min hi 0), [])
  | v :: rest, lo, hi => (max lo (min hi v), rest)

/-- A concrete deterministic random source that always draws the clamp of
`0` into the requested interval. -/
def constNext : Unit → Int → Int → Int × Unit :=
  fun _ lo hi => (max lo (min hi 0), ())

/-- A random source respects its bounds when every draw `next s lo hi` with
`lo ≤ hi` lands in `[lo, hi]` (the contract of `random.randint`). -/
def RespectsBounds {σ : Type} (next : σ → Int → Int → Int × σ) : Prop :=
  ∀ s lo hi, lo ≤ hi → lo ≤ (next s lo hi).1 ∧ (next s lo hi).1 ≤ hi

/-- The shape invariant of every region of a run on a grid of side `N + 1`:
the region lies inside the grid and is a square whose side is a power of
two with exponent at least 1. -/
def GoodRegion (N : Nat) (r : Region) : Prop :=
  r.x1 ≤ N ∧ r.y1 ≤ N ∧ ∃ k, 1 ≤ k ∧ r.x1 = r.x0 + 2 ^ k ∧ r.y1 = r.y0 + 2 ^ k

/-! ### Basic equations for the drain loop -/

lemma drainF_nil {σ : Type} (next : σ → Int → Int → Int × σ) (fuel : Nat)
    (g : Grid) (s : σ) : drainF next fuel g s [] = some (g, s, []) := by
  cases fuel <;> rfl

lemma drainF_cons {σ : Type} (next : σ → Int → Int → Int × σ) (fuel : Nat)
    (g : Grid) (s : σ) (r : Region) (q : List Region) :
    drainF next (fuel + 1) g s (r :: q) =
      (drainF next fuel (processRegion next g s r).1 (processRegion next g s r).2
          (q ++ childrenOf r)).map
        fun x => (x.1, x.2.1, r :: x.2.2) := rfl

/-! ### Weights and termination of the drain -/

lemma regionWeight_pos (d : Nat) : 1 ≤ regionWeight d := by
  rw [regionWeight]
  split <;> omega

lemma queueWeight_nil : queueWeight [] = 0 := rfl

lemma queueWeight_cons (r : Region) (q : List Region) :
    queueWeight (r :: q) = regionWeight (r.y1 - r.y0) + queueWeight q := by
  simp [queueWeight]

lemma queueWeight_append (q p : List Region) :
    queueWeight (q ++ p) = queueWeight q + queueWeight p := by
  simp [queueWeight]

lemma childrenOf_of_le (r : Region) (h : ¬ r.y1 - r.y0 > 2) : childrenOf r = [] := by
  simp [childrenOf, h]

lemma queueWeight_childrenOf (r : Region) (h : r.y1 - r.y0 > 2) :
    queueWeight (childrenOf r) + 1 = regionWeight (r.y1 - r.y0) := by
  rw [childrenOf, if_pos h]
  have h1 : (r.y0 + r.y1) / 2 - r.y0 = (r.y1 - r.y0) / 2 := by omega
  have h2 : r.y1 - (r.y0 + r.y1) / 2 = (r.y1 - r.y0) - (r.y1 - r.y0) / 2 := by omega
  rw [regionWeight, dif_neg (by omega)]
  simp only [queueWeight, List.map_cons, List.map_nil, List.sum_cons, List.sum_nil]
  rw [h1, h2]
  omega

lemma drainF_isSome {σ : Type} (next : σ → Int → Int → Int × σ) :
    ∀ fuel (q : List Region) (g : Grid) (s : σ), queueWeight q ≤ fuel →
      ∃ g' s' tr, drainF next fuel g s q = some (g', s', tr) := by
  intro fuel
  induction fuel with
  | zero =>
    intro q g s hq
    match q with
    | [] => exact ⟨g, s, [], drainF_nil next 0 g s⟩
    | r :: q' =>
      rw [queueWeight_cons] at hq
      have := regionWeight_pos (r.y1 - r.y0)
      omega
  | succ fuel ih =>
    intro q g s hq
    match q with
    | [] => exact ⟨g, s, [], drainF_nil next _ g s⟩
    | r :: q' =>
      rw [queueWeight_cons] at hq
      have hle : queueWeight (q' ++ childrenOf r) ≤ fuel := by
        rw [queueWeight_append]
        by_cases hgt : r.y1 - r.y0 > 2
        · have := queueWeight_childrenOf r hgt
          omega
        · rw [childrenOf_of_le r hgt, queueWeight_nil]
          have := regionWeight_pos (r.y1 - r.y0)
          omega
      obtain ⟨g', s', tr, heq⟩ :=
        ih (q' ++ childrenOf r) (processRegion next g s r).1 (processRegion next g s r).2 hle
      exact ⟨g', s', r :: tr, by rw [drainF_cons, heq]; rfl⟩

lemma regionWeight_two_pow : ∀ n, regionWeight (2 ^ n) = fuelFor n := by
  intro n
  induction n using fuelFor.induct with
  | case1 => rw [regionWeight]; rfl
  | case2 => rw [regionWeight]; rfl
  | case3 k ih =>
    have hpow : 2 ^ (k + 2) = 2 ^ (k + 1) + 2 ^ (k + 1) := by
      rw [pow_succ]; omega
    have hpos : 1 ≤ 2 ^ (k + 1) := Nat.one_le_two_pow
    rw [regionWeight, dif_neg (by omega)]
    have h1 : 2 ^ (k + 2) / 2 = 2 ^ (k + 1) := by omega
    rw [h1]
    have h2 : 2 ^ (k + 2) - 2 ^ (k + 1) = 2 ^ (k + 1) := by omega
    rw [h2, ih, fuelFor]
    omega

lemma md2d_eq_some {σ : Type} (next : σ → Int → Int → Int × σ) (n : Nat)
    (rough : Int) (s : σ) :
    ∃ g s' tr, midpoint_displacement_2d next n rough s = some (g, s', tr) := by
  unfold midpoint_displacement_2d
  apply drainF_isSome
  have : (⟨0, 0, 2 ^ n + 1 - 1, 2 ^ n + 1 - 1, rough⟩ : Region).y1 -
      (⟨0, 0, 2 ^ n + 1 - 1, 2 ^ n + 1 - 1, rough⟩ : Region).y0 = 2 ^ n := by
    simp
  rw [queueWeight_cons, queueWeight_nil, this, regionWeight_two_pow]
  omega

lemma drainF_zero_cons {σ : Type} (next : σ → Int → Int → Int × σ) (g : Grid)
    (s : σ) (r : Region) (q : List Region) :
    drainF next 0 g s (r :: q) = none := rfl

lemma drainF_nil_inv {σ : Type} {next : σ → Int → Int → Int × σ} {fuel : Nat}
    {g : Grid} {s : σ} {g' : Grid} {s' : σ} {tr : List Region}
    (h : drainF next fuel g s [] = some (g', s', tr)) :
    g' = g ∧ s' = s ∧ tr = [] := by
  rw [drainF_nil] at h
  obtain ⟨h1, h2, h3⟩ := by simpa using h.symm
  exact ⟨h1, h2, h3⟩

lemma drainF_cons_inv {σ : Type} {next : σ → Int → Int → Int × σ} {fuel : Nat}
    {g : Grid} {s : σ} {r : Region} {q : List Region} {g' : Grid} {s' : σ}
    {tr : List Region}
    (h : drainF next (fuel + 1) g s (r :: q) = some (g', s', tr)) :
    ∃ tr', drainF next fuel (processRegion next g s r).1 (processRegion next g s r).2
        (q ++ childrenOf r) = some (g', s', tr') ∧ tr = r :: tr' := by
  rw [drainF_cons] at h
  cases hrec : drainF next fuel (processRegion next g s r).1 (processRegion next g s r).2
      (q ++ childrenOf r) with
  | none => rw [hrec] at h; simp at h
  | some x =>
    rw [hrec] at h
    simp only [Option.map_some'] at h
    obtain ⟨xg, xs, xtr⟩ := x
    obtain ⟨h1, h2, h3⟩ := by simpa using h
    subst h1
    subst h2
    subst h3
    exact ⟨xtr, rfl, rfl⟩

/-! ### Region-shape invariants along the trace -/

lemma drainF_inv {σ : Type} (next : σ → Int → Int → Int × σ) (P : Region → Prop)
    (hP : ∀ r, P r → ∀ c ∈ childrenOf r, P c) :
    ∀ fuel (q : List Region) (g : Grid) (s : σ) g' s' tr,
      drainF next fuel g s q = some (g', s', tr) →
      (∀ r ∈ q, P r) → ∀ r ∈ tr, P r := by
  intro fuel
  induction fuel with
  | zero =>
    intro q g s g' s' tr heq hq
    match q with
    | [] =>
      obtain ⟨-, -, rfl⟩ := drainF_nil_inv heq
      simp
    | r :: q' => rw [drainF_zero_cons] at heq; simp at heq
  | succ fuel ih =>
    intro q g s g' s' tr heq hq
    match q with
    | [] =>
      obtain ⟨-, -, rfl⟩ := drainF_nil_inv heq
      simp
    | r :: q' =>
      obtain ⟨tr', hrec, rfl⟩ := drainF_cons_inv heq
      intro r' hr'
      rcases List.mem_cons.1 hr' with rfl | hr'
      · exact hq r' (List.mem_cons_self r' q')
      · refine ih _ _ _ _ _ _ hrec ?_ r' hr'
        intro t ht
        rcases List.mem_append.1 ht with ht | ht
        · exact hq t (List.mem_cons_of_mem r ht)
        · exact hP r (hq r (List.mem_cons_self r q')) t ht

lemma goodRegion_children {N : Nat} {r : Region} (h : GoodRegion N r) :
    ∀ c ∈ childrenOf r, GoodRegion N c := by
  intro c hc
  rw [childrenOf] at hc
  by_cases hgt : r.y1 - r.y0 > 2
  · rw [if_pos hgt] at hc
    obtain ⟨hx1, hy1, k, hk, hxe, hye⟩ := h
    rcases k with _ | m
    · omega
    rcases m with _ | m
    · rw [pow_one] at hye; omega
    have hpow : 2 ^ (m + 1 + 1) = 2 ^ (m + 1) + 2 ^ (m + 1) := by rw [pow_succ]; omega
    have ht : 1 ≤ 2 ^ (m + 1) := Nat.one_le_two_pow
    have hcx : (r.x0 + r.x1) / 2 = r.x0 + 2 ^ (m + 1) := by omega
    have hcy : (r.y0 + r.y1) / 2 = r.y0 + 2 ^ (m + 1) := by omega
    simp only [List.mem_cons, List.not_mem_nil, or_false] at hc
    rcases hc with rfl | rfl | rfl | rfl <;>
      exact ⟨by dsimp only; omega, by dsimp only; omega,
        m + 1, by omega, by dsimp only; omega, by dsimp only; omega⟩
  · rw [if_neg hgt] at hc
    simp at hc

lemma goodRegion_root {n : Nat} (hn : 1 ≤ n) (rough : Int) :
    GoodRegion (2 ^ n) ⟨0, 0, 2 ^ n + 1 - 1, 2 ^ n + 1 - 1, rough⟩ :=
  ⟨by simp, by simp, n, hn, by simp, by simp⟩

lemma md2d_trace_good {σ : Type} {next : σ → Int → Int → Int × σ} {n : Nat}
    {rough : Int} {s : σ} {g : Grid} {s' : σ} {tr : List Region}
    (hn : 1 ≤ n) (h : midpoint_displacement_2d next n rough s = some (g, s', tr)) :
    ∀ r ∈ tr, GoodRegion (2 ^ n) r := by
  unfold midpoint_displacement_2d at h
  refine drainF_inv next (GoodRegion (2 ^ n)) (fun r hr => goodRegion_children hr)
    _ _ _ _ _ _ _ h ?_
  intro r hr
  rcases List.mem_cons.1 hr with rfl | hr
  · exact goodRegion_root hn rough
  · simp at hr

lemma goodRegion_reads_writes_bound {N : Nat} {r : Region} (h : GoodRegion N r) :
    ∀ p ∈ readsOf r ++ writesOf r, p.1 ≤ N ∧ p.2 ≤ N := by
  obtain ⟨hx1, hy1, k, hk, hxe, hye⟩ := h
  have ht : 1 ≤ 2 ^ k := Nat.one_le_two_pow
  intro p hp
  simp only [readsOf, writesOf, List.mem_append, List.mem_cons,
    List.not_mem_nil, or_false] at hp
  rcases hp with (rfl | rfl | rfl | rfl) | (rfl | rfl | rfl | rfl | rfl) <;>
    exact ⟨by dsimp only; omega, by dsimp only; omega⟩

lemma goodRegion_writes_not_corner {n : Nat} {r : Region}
    (h : GoodRegion (2 ^ n) r) : ∀ p ∈ writesOf r, p ∉ cornerCells n := by
  obtain ⟨hx1, hy1, k, hk, hxe, hye⟩ := h
  rcases k with _ | m
  · omega
  have hpow : 2 ^ (m + 1) = 2 ^ m + 2 ^ m := by rw [pow_succ]; omega
  have ht : 1 ≤ 2 ^ m := Nat.one_le_two_pow
  have hN : 1 ≤ 2 ^ n := Nat.one_le_two_pow
  intro p hp hcorner
  simp only [writesOf, List.mem_cons, List.not_mem_nil, or_false] at hp
  simp only [cornerCells, List.mem_cons, List.not_mem_nil, or_false] at hcorner
  rcases hp with rfl | rfl | rfl | rfl | rfl <;>
    (simp only [Prod.mk.injEq] at hcorner; omega)

/-! ### Cells not written keep their value -/

lemma processRegion_apply_notin {σ : Type} (next : σ → Int → Int → Int × σ)
    (g : Grid) (s : σ) (r : Region) (a b : Nat)
    (h : (a, b) ∉ writesOf r) : (processRegion next g s r).1 a b = g a b := by
  simp only [writesOf, List.mem_cons, List.not_mem_nil, or_false, not_or,
    Prod.mk.injEq, not_and] at h
  obtain ⟨h1, h2, h3, h4, h5⟩ := h
  simp only [processRegion, setCell]
  rw [if_neg fun hc => h5 hc.1 hc.2, if_neg fun hc => h4 hc.1 hc.2,
    if_neg fun hc => h3 hc.1 hc.2, if_neg fun hc => h2 hc.1 hc.2,
    if_neg fun hc => h1 hc.1 hc.2]

lemma drainF_frame {σ : Type} (next : σ → Int → Int → Int × σ) :
    ∀ fuel (q : List Region) (g : Grid) (s : σ) g' s' tr,
      drainF next fuel g s q = some (g', s', tr) →
      ∀ a b, (∀ r ∈ tr, (a, b) ∉ writesOf r) → g' a b = g a b := by
  intro fuel
  induction fuel with
  | zero =>
    intro q g s g' s' tr heq
    match q with
    | [] => obtain ⟨rfl, -, -⟩ := drainF_nil_inv heq; intro a b _; rfl
    | r :: q' => rw [drainF_zero_cons] at heq; simp at heq
  | succ fuel ih =>
    intro q g s g' s' tr heq
    match q with
    | [] => obtain ⟨rfl, -, -⟩ := drainF_nil_inv heq; intro a b _; rfl
    | r :: q' =>
      obtain ⟨tr', hrec, rfl⟩ := drainF_cons_inv heq
      intro a b hnot
      have h1 : g' a b = (processRegion next g s r).1 a b := by
        refine ih _ _ _ _ _ _ hrec a b ?_
        intro t ht
        exact hnot t (List.mem_cons_of_mem r ht)
      rw [h1, processRegion_apply_notin]
      exact hnot r (List.mem_cons_self r tr')

/-! ### Corner dependencies of processed regions -/

lemma childrenOf_reads {r c : Region} (hc : c ∈ childrenOf r) :
    ∀ p ∈ readsOf c, p ∈ readsOf r ∨ p ∈ writesOf r := by
  rw [childrenOf] at hc
  by_cases hgt : r.y1 - r.y0 > 2
  · rw [if_pos hgt] at hc
    simp only [List.mem_cons, List.not_mem_nil, or_false] at hc
    intro p hp
    rcases hc with rfl | rfl | rfl | rfl <;>
      (simp only [readsOf, writesOf, List.mem_cons, List.not_mem_nil,
        or_false] at hp ⊢; tauto)
  · rw [if_neg hgt] at hc; simp at hc

lemma drainF_corner_dep {σ : Type} (next : σ → Int → Int → Int × σ) :
    ∀ fuel (q : List Region) (g : Grid) (s : σ) (g' : Grid) (s' : σ)
      (tr : List Region) (W : List (Nat × Nat)),
      drainF next fuel g s q = some (g', s', tr) →
      (∀ r ∈ q, ∀ p ∈ readsOf r, p ∈ W) →
      ∀ i (hi : i < tr.length), ∀ p ∈ readsOf (tr.get ⟨i, hi⟩),
        p ∈ W ∨ ∃ j, j < i ∧ ∃ hj : j < tr.length, p ∈ writesOf (tr.get ⟨j, hj⟩) := by
  intro fuel
  induction fuel with
  | zero =>
    intro q g s g' s' tr W heq hq
    match q with
    | [] => obtain ⟨-, -, rfl⟩ := drainF_nil_inv heq; intro i hi; simp at hi
    | r :: q' => rw [drainF_zero_cons] at heq; simp at heq
  | succ fuel ih =>
    intro q g s g' s' tr W heq hq
    match q with
    | [] => obtain ⟨-, -, rfl⟩ := drainF_nil_inv heq; intro i hi; simp at hi
    | r :: q' =>
      obtain ⟨tr', hrec, rfl⟩ := drainF_cons_inv heq
      have hnext : ∀ t ∈ q' ++ childrenOf r, ∀ p ∈ readsOf t, p ∈ W ++ writesOf r := by
        intro t ht p hp
        rcases List.mem_append.1 ht with ht | ht
        · exact List.mem_append_left _ (hq t (List.mem_cons_of_mem r ht) p hp)
        · rcases childrenOf_reads ht p hp with h | h
          · exact List.mem_append_left _ (hq r (List.mem_cons_self r q') p h)
          · exact List.mem_append_right _ h
      have IH := ih _ _ _ _ _ _ _ hrec hnext
      intro i hi p hp
      match i, hi with
      | 0, hi =>
        exact Or.inl (hq r (List.mem_cons_self r q') p (by simpa using hp))
      | j + 1, hi =>
        have hj' : j < tr'.length := by simpa using hi
        have hp' : p ∈ readsOf (tr'.get ⟨j, hj'⟩) := by simpa using hp
        rcases IH j hj' p hp' with hW | ⟨j0, hj0, hj0len, hw⟩
        · rcases List.mem_append.1 hW with h | h
          · exact Or.inl h
          · exact Or.inr ⟨0, by omega, by simp, by simpa using h⟩
        · exact Or.inr ⟨j0 + 1, by omega, by simpa using hj0len, by simpa using hw⟩

/-! ### Coverage: which cells the run writes -/

lemma descWrites_mem (r : Region) (p : Nat × Nat) :
    p ∈ descWrites r ↔ p ∈ writesOf r ∨ ∃ c ∈ childrenOf r, p ∈ descWrites c := by
  rw [descWrites, childrenOf]
  by_cases hgt : r.y1 - r.y0 > 2
  · rw [dif_pos hgt, if_pos hgt]
    simp only [List.mem_append, List.mem_cons, List.not_mem_nil, or_false,
      exists_eq_or_imp, exists_eq_left]
    tauto
  · rw [dif_neg hgt, if_neg hgt]
    simp

lemma drainF_trace_writes {σ : Type} (next : σ → Int → Int → Int × σ) :
    ∀ fuel (q : List Region) (g : Grid) (s : σ) g' s' tr,
      drainF next fuel g s q = some (g', s', tr) →
      ∀ p : Nat × Nat, ((∃ r ∈ tr, p ∈ writesOf r) ↔ ∃ r ∈ q, p ∈ descWrites r) := by
  intro fuel
  induction fuel with
  | zero =>
    intro q g s g' s' tr heq
    match q with
    | [] => obtain ⟨-, -, rfl⟩ := drainF_nil_inv heq; simp
    | r :: q' => rw [drainF_zero_cons] at heq; simp at heq
  | succ fuel ih =>
    intro q g s g' s' tr heq
    match q with
    | [] => obtain ⟨-, -, rfl⟩ := drainF_nil_inv heq; simp
    | r :: q' =>
      obtain ⟨tr', hrec, rfl⟩ := drainF_cons_inv heq
      intro p
      have hIH := ih _ _ _ _ _ _ hrec p
      rw [List.exists_mem_cons_iff, List.exists_mem_cons_iff, descWrites_mem, hIH]
      simp only [List.mem_append, or_and_right, exists_or]
      itauto

lemma descWrites_cover :
    ∀ k, 1 ≤ k → ∀ (x0 y0 : Nat) (rough : Int) (a b : Nat),
      ((a, b) ∈ descWrites ⟨x0, y0, x0 + 2 ^ k, y0 + 2 ^ k, rough⟩ ↔
        (y0 ≤ a ∧ a ≤ y0 + 2 ^ k ∧ x0 ≤ b ∧ b ≤ x0 + 2 ^ k ∧
          ¬((a = y0 ∨ a = y0 + 2 ^ k) ∧ (b = x0 ∨ b = x0 + 2 ^ k)))) := by
  intro k
  induction k with
  | zero => intro h; exact absurd h (by omega)
  | succ k ihk =>
    intro _ x0 y0 rough a b
    by_cases hk : k = 0
    · subst hk
      rw [descWrites, dif_neg (by dsimp only; omega)]
      rw [pow_one]
      simp only [writesOf, List.mem_cons, List.not_mem_nil, or_false, Prod.mk.injEq]
      omega
    · have hk1 : 1 ≤ k := by omega
      have hpow : 2 ^ (k + 1) = 2 ^ k + 2 ^ k := by rw [pow_succ]; omega
      have ht : 2 ≤ 2 ^ k := by
        calc (2 : Nat) = 2 ^ 1 := by norm_num
        _ ≤ 2 ^ k := Nat.pow_le_pow_right (by norm_num) hk1
      rw [descWrites, dif_pos (by dsimp only; omega)]
      dsimp only
      have hcx : (x0 + (x0 + 2 ^ (k + 1))) / 2 = x0 + 2 ^ k := by omega
      have hcy : (y0 + (y0 + 2 ^ (k + 1))) / 2 = y0 + 2 ^ k := by omega
      rw [hcx, hcy]
      have hx1 : x0 + 2 ^ (k + 1) = x0 + 2 ^ k + 2 ^ k := by omega
      have hy1 : y0 + 2 ^ (k + 1) = y0 + 2 ^ k + 2 ^ k := by omega
      rw [hx1, hy1]
      simp only [writesOf, List.mem_append, List.mem_cons, List.not_mem_nil,
        or_false, Prod.mk.injEq, ihk hk1]
      omega

/-! ### Zero roughness degenerates to pure floor-averaging -/

lemma processRegion_rough_zero {σ : Type} {next : σ → Int → Int → Int × σ}
    (hb : RespectsBounds next) (g : Grid) (s : σ) (r : Region)
    (h0 : r.roughness = 0) : (processRegion next g s r).1 = processRegionAvg g r := by
  have hv : ∀ st : σ, (next st (-(0 : Int)) 0).1 = 0 := by
    intro st
    have := hb st (-(0 : Int)) 0 (by omega)
    omega
  simp only [processRegion, processRegionAvg, my_randint, h0, hv, add_zero]

lemma childrenOf_rough_zero {r : Region} (h0 : r.roughness = 0) :
    ∀ c ∈ childrenOf r, c.roughness = 0 := by
  intro c hc
  rw [childrenOf] at hc
  by_cases hgt : r.y1 - r.y0 > 2
  · rw [if_pos hgt] at hc
    simp only [List.mem_cons, List.not_mem_nil, or_false] at hc
    rcases hc with rfl | rfl | rfl | rfl <;> simp [h0, Int.zero_fdiv]
  · rw [if_neg hgt] at hc; simp at hc

lemma drainF_rough_zero {σ : Type} {next : σ → Int → Int → Int × σ}
    (hb : RespectsBounds next) :
    ∀ fuel (q : List Region) (g : Grid) (s : σ) g' s' tr,
      drainF next fuel g s q = some (g', s', tr) →
      (∀ r ∈ q, r.roughness = 0) → g' = drainAvgF fuel g q := by
  intro fuel
  induction fuel with
  | zero =>
    intro q g s g' s' tr heq hq
    match q with
    | [] => obtain ⟨rfl, -, -⟩ := drainF_nil_inv heq; rfl
    | r :: q' => rw [drainF_zero_cons] at heq; simp at heq
  | succ fuel ih =>
    intro q g s g' s' tr heq hq
    match q with
    | [] => obtain ⟨rfl, -, -⟩ := drainF_nil_inv heq; rfl
    | r :: q' =>
      obtain ⟨tr', hrec, rfl⟩ := drainF_cons_inv heq
      have hq' : ∀ t ∈ q' ++ childrenOf r, t.roughness = 0 := by
        intro t ht
        rcases List.mem_append.1 ht with ht | ht
        · exact hq t (List.mem_cons_of_mem r ht)
        · exact childrenOf_rough_zero (hq r (List.mem_cons_self r q')) t ht
      have := ih _ _ _ _ _ _ hrec hq'
      rw [this, processRegion_rough_zero hb g s r (hq r (List.mem_cons_self r q'))]
      rfl

/-! ### Determinism: runs driven by equal draw sequences agree -/

lemma processRegion_bisim {σ1 σ2 : Type} {next1 : σ1 → Int → Int → Int × σ1}
    {next2 : σ2 → Int → Int → Int × σ2} {R : σ1 → σ2 → Prop}
    (hR : ∀ s1 s2 lo hi, R s1 s2 →
      (next1 s1 lo hi).1 = (next2 s2 lo hi).1 ∧
        R (next1 s1 lo hi).2 (next2 s2 lo hi).2)
    (g : Grid) (s1 : σ1) (s2 : σ2) (r : Region) (h : R s1 s2) :
    (processRegion next1 g s1 r).1 = (processRegion next2 g s2 r).1 ∧
      R (processRegion next1 g s1 r).2 (processRegion next2 g s2 r).2 := by
  obtain ⟨hv1, hs1⟩ := hR s1 s2 (-r.roughness) r.roughness h
  obtain ⟨hv2, hs2⟩ := hR _ _ (-r.roughness) r.roughness hs1
  obtain ⟨hv3, hs3⟩ := hR _ _ (-r.roughness) r.roughness hs2
  obtain ⟨hv4, hs4⟩ := hR _ _ (-r.roughness) r.roughness hs3
  obtain ⟨hv5, hs5⟩ := hR _ _ (-r.roughness) r.roughness hs4
  constructor
  · simp only [processRegion, my_randint]
    rw [hv1, hv2, hv3, hv4, hv5]
  · simp only [processRegion, my_randint]
    exact hs5

lemma drainF_bisim {σ1 σ2 : Type} {next1 : σ1 → Int → Int → Int × σ1}
    {next2 : σ2 → Int → Int → Int × σ2} {R : σ1 → σ2 → Prop}
    (hR : ∀ s1 s2 lo hi, R s1 s2 →
      (next1 s1 lo hi).1 = (next2 s2 lo hi).1 ∧
        R (next1 s1 lo hi).2 (next2 s2 lo hi).2) :
    ∀ fuel (q : List Region) (g : Grid) (s1 : σ1) (s2 : σ2), R s1 s2 →
      ((drainF next1 fuel g s1 q = none ∧ drainF next2 fuel g s2 q = none) ∨
        ∃ g' s1' s2' tr, drainF next1 fuel g s1 q = some (g', s1', tr) ∧
          drainF next2 fuel g s2 q = some (g', s2', tr) ∧ R s1' s2') := by
  intro fuel
  induction fuel with
  | zero =>
    intro q g s1 s2 h12
    match q with
    | [] => exact Or.inr ⟨g, s1, s2, [], drainF_nil _ _ _ _, drainF_nil _ _ _ _, h12⟩
    | r :: q' => exact Or.inl ⟨rfl, rfl⟩
  | succ fuel ih =>
    intro q g s1 s2 h12
    match q with
    | [] => exact Or.inr ⟨g, s1, s2, [], drainF_nil _ _ _ _, drainF_nil _ _ _ _, h12⟩
    | r :: q' =>
      obtain ⟨hgEq, hsR⟩ := processRegion_bisim hR g s1 s2 r h12
      rcases ih (q' ++ childrenOf r) (processRegion next1 g s1 r).1
          (processRegion next1 g s1 r).2 (processRegion next2 g s2 r).2 hsR with
        ⟨h1, h2⟩ | ⟨g', s1', s2', tr, h1, h2, hr'⟩
      · left
        have h2' : drainF next2 fuel (processRegion next2 g s2 r).1
            (processRegion next2 g s2 r).2 (q' ++ childrenOf r) = none := by
          rw [← hgEq]; exact h2
        constructor
        · rw [drainF_cons, h1]; rfl
        · rw [drainF_cons, h2']; rfl
      · right
        have h2' : drainF next2 fuel (processRegion next2 g s2 r).1
            (processRegion next2 g s2 r).2 (q' ++ childrenOf r) =
              some (g', s2', tr) := by
          rw [← hgEq]; exact h2
        refine ⟨g', s1', s2', r :: tr, ?_, ?_, hr'⟩
        · rw [drainF_cons, h1]; rfl
        · rw [drainF_cons, h2']; rfl

lemma md2d_bisim {σ1 σ2 : Type} {next1 : σ1 → Int → Int → Int × σ1}
    {next2 : σ2 → Int → Int → Int × σ2} {R : σ1 → σ2 → Prop}
    (hR : ∀ s1 s2 lo hi, R s1 s2 →
      (next1 s1 lo hi).1 = (next2 s2 lo hi).1 ∧
        R (next1 s1 lo hi).2 (next2 s2 lo hi).2)
    (n : Nat) (rough : Int) (s1 : σ1) (s2 : σ2) (h : R s1 s2) :
    (∀ a b, gridOf (midpoint_displacement_2d next1 n rough s1) a b =
        gridOf (midpoint_displacement_2d next2 n rough s2) a b) ∧
      traceOf (midpoint_displacement_2d next1 n rough s1) =
        traceOf (midpoint_displacement_2d next2 n rough s2) := by
  obtain ⟨hd1, hs1⟩ := hR s1 s2 0 256 h
  obtain ⟨hd2, hs2⟩ := hR _ _ 0 256 hs1
  obtain ⟨hd3, hs3⟩ := hR _ _ 0 256 hs2
  obtain ⟨hd4, hs4⟩ := hR _ _ 0 256 hs3
  simp only [midpoint_displacement_2d]
  rw [hd1, hd2, hd3, hd4]
  rcases drainF_bisim hR (fuelFor n)
      [⟨0, 0, 2 ^ n + 1 - 1, 2 ^ n + 1 - 1, rough⟩] _ _ _ hs4 with
    ⟨h1, h2⟩ | ⟨g', s1', s2', tr, h1, h2, -⟩
  · rw [h1, h2]; exact ⟨fun a b => rfl, rfl⟩
  · rw [h1, h2]; exact ⟨fun a b => rfl, rfl⟩

lemma streamNext_respects : RespectsBounds streamNext := by
  intro s lo hi hle
  cases s with
  | nil =>
    simp only [streamNext]
    exact ⟨le_max_left _ _, max_le hle (min_le_left _ _)⟩
  | cons v rest =>
    simp only [streamNext]
    exact ⟨le_max_left _ _, max_le hle (min_le_left _ _)⟩

lemma constNext_respects : RespectsBounds constNext := by
  intro s lo hi hle
  simp only [constNext]
  exact ⟨le_max_left _ _, max_le hle (min_le_left _ _)⟩

lemma md2d_rough_zero {σ : Type} (next : σ → Int → Int → Int × σ)
    (hb : RespectsBounds next) (n : Nat) (s : σ) (a b : Nat) :
    gridOf (midpoint_displacement_2d next n 0 s) a b =
      midpoint_displacement_2d_noNoise next n s a b := by
  obtain ⟨g, s', tr, heq⟩ := md2d_eq_some next n 0 s
  have heq' := heq
  simp only [midpoint_displacement_2d] at heq'
  have hz := drainF_rough_zero hb _ _ _ _ _ _ _ heq' ?hq
  case hq =>
    intro r hr
    simp only [List.mem_cons, List.not_mem_nil, or_false] at hr
    subst hr
    rfl
  rw [heq]
  show g a b = _
  rw [hz]
  rfl

/-! ### Claim theorems -/

/-- Claim C3, counterexample. The claim says grid creation with `n < 1`
fails with an `InvalidSizeError` and no grid is returned. The source has no
such validation and defines no such error: at `n = 0` the function runs
normally and returns a (2 × 2)-indexed grid — here with corner seeds
`1, 2, 3, 4`, whose root region `(0, 0, 1, 1)` has center `(0, 0)`, so the
midpoint writes land on the corner cells, leaving the concrete values
below. A grid is returned, refuting the claim. -/
theorem c3_counterexample :
    traceOf (midpoint_displacement_2d streamNext 0 7 [1, 2, 3, 4]) =
        [⟨0, 0, 1, 1, 7⟩] ∧
      gridOf (midpoint_displacement_2d streamNext 0 7 [1, 2, 3, 4]) 0 0 = 2 ∧
      gridOf (midpoint_displacement_2d streamNext 0 7 [1, 2, 3, 4]) 0 1 = 3 ∧
      gridOf (midpoint_displacement_2d streamNext 0 7 [1, 2, 3, 4]) 1 0 = 3 ∧
      gridOf (midpoint_displacement_2d streamNext 0 7 [1, 2, 3, 4]) 1 1 = 4 := by
  decide

/-- Claim C3, amended: the code performs no size validation and defines no
`InvalidSizeError`; for `n = 0` (the only exponent below 1 on which the
code still builds a grid) `midpoint_displacement_2d` returns a grid
normally, after processing exactly the single root region `(0, 0, 1, 1)`
of the 2 × 2 buffer. -/
theorem c3_amended_no_validation {σ : Type} (next : σ → Int → Int → Int × σ)
    (rough : Int) (s : σ) :
    (∃ g s' tr, midpoint_displacement_2d next 0 rough s = some (g, s', tr)) ∧
      traceOf (midpoint_displacement_2d next 0 rough s) = [⟨0, 0, 1, 1, rough⟩] :=
  ⟨⟨_, _, _, rfl⟩, rfl⟩

/-- Claim C4: for `n = 1`, corner seeds `10, 20, 30, 40` (top-left,
top-right, bottom-left, bottom-right) and `roughness = 0`, the 3 × 3 grid
has center `25`, top midpoint `15`, bottom midpoint `35`, left midpoint
`20`, right midpoint `30`; the corners keep their seeds and the run
processes exactly the root region — no children are enqueued. -/
theorem c4_n1_concrete :
    gridOf (midpoint_displacement_2d streamNext 1 0 [10, 20, 30, 40]) 1 1 = 25 ∧
      gridOf (midpoint_displacement_2d streamNext 1 0 [10, 20, 30, 40]) 0 1 = 15 ∧
      gridOf (midpoint_displacement_2d streamNext 1 0 [10, 20, 30, 40]) 2 1 = 35 ∧
      gridOf (midpoint_displacement_2d streamNext 1 0 [10, 20, 30, 40]) 1 0 = 20 ∧
      gridOf (midpoint_displacement_2d streamNext 1 0 [10, 20, 30, 40]) 1 2 = 30 ∧
      gridOf (midpoint_displacement_2d streamNext 1 0 [10, 20, 30, 40]) 0 0 = 10 ∧
      gridOf (midpoint_displacement_2d streamNext 1 0 [10, 20, 30, 40]) 0 2 = 20 ∧
      gridOf (midpoint_displacement_2d streamNext 1 0 [10, 20, 30, 40]) 2 0 = 30 ∧
      gridOf (midpoint_displacement_2d streamNext 1 0 [10, 20, 30, 40]) 2 2 = 40 ∧
      traceOf (midpoint_displacement_2d streamNext 1 0 [10, 20, 30, 40]) =
        [⟨0, 0, 2, 2, 0⟩] := by
  decide

/-- Claim C5: with initial roughness 0 every noise draw is 0, so the run
coincides cell-by-cell with the noise-free floor-average algorithm
(`midpoint_displacement_2d_noNoise`) for every bounds-respecting random
source; in particular at `n = 2` with all corner seeds 0 the final 5 × 5
grid is identically zero. -/
theorem c5_zero_roughness :
    (∀ (σ : Type) (next : σ → Int → Int → Int × σ), RespectsBounds next →
      ∀ (n : Nat) (s : σ) (a b : Nat),
        gridOf (midpoint_displacement_2d next n 0 s) a b =
          midpoint_displacement_2d_noNoise next n s a b) ∧
      ∀ a : Nat, a < 5 → ∀ b : Nat, b < 5 →
        gridOf (midpoint_displacement_2d constNext 2 0 ()) a b = 0 := by
  constructor
  · intro σ next hb n s a b
    exact md2d_rough_zero next hb n s a b
  · decide

/-- Witness for C5 at a concrete source and concrete cells. -/
theorem c5_zero_roughness_witness :
    gridOf (midpoint_displacement_2d constNext 1 0 ()) 1 1 =
        midpoint_displacement_2d_noNoise constNext 1 () 1 1 ∧
      gridOf (midpoint_displacement_2d constNext 2 0 ()) 1 2 = 0 :=
  ⟨c5_zero_roughness.1 Unit constNext constNext_respects 1 () 1 1,
    c5_zero_roughness.2 1 (by decide) 2 (by decide)⟩

/-- Claim C6: for every `n ≥ 1` and every initial roughness, the drain
loop terminates — the queue empties within the allotted fuel and the run
returns a result (`some`): each split strictly halves the region side and
side-2 regions enqueue no children, so the total number of processed
regions is `fuelFor n`. -/
theorem c6_drain_terminates {σ : Type} (next : σ → Int → Int → Int × σ)
    (n : Nat) (rough : Int) (s : σ) (_hn : 1 ≤ n) :
    ∃ g s' tr, midpoint_displacement_2d next n rough s = some (g, s', tr) :=
  md2d_eq_some next n rough s

/-- Witness for C6 at `n = 1`, roughness 5. -/
theorem c6_drain_terminates_witness :
    1 ≤ 1 ∧ ∃ g s' tr,
      midpoint_displacement_2d streamNext 1 5 [1, 2, 3, 4] = some (g, s', tr) :=
  ⟨by decide, c6_drain_terminates streamNext 1 5 [1, 2, 3, 4] (by decide)⟩

/-- Claim C9: the engine is deterministic given a deterministic random
source — if two sources produce, from related states, equal draws and
again-related states (in particular, the same seeded generator twice),
then the two runs agree in every cell and process the same regions. -/
theorem c9_deterministic {σ1 σ2 : Type} (next1 : σ1 → Int → Int → Int × σ1)
    (next2 : σ2 → Int → Int → Int × σ2) (R : σ1 → σ2 → Prop)
    (hR : ∀ s1 s2 lo hi, R s1 s2 →
      (next1 s1 lo hi).1 = (next2 s2 lo hi).1 ∧
        R (next1 s1 lo hi).2 (next2 s2 lo hi).2)
    (n : Nat) (rough : Int) (s1 : σ1) (s2 : σ2) (h : R s1 s2) :
    (∀ a b, gridOf (midpoint_displacement_2d next1 n rough s1) a b =
        gridOf (midpoint_displacement_2d next2 n rough s2) a b) ∧
      traceOf (midpoint_displacement_2d next1 n rough s1) =
        traceOf (midpoint_displacement_2d next2 n rough s2) :=
  md2d_bisim hR n rough s1 s2 h

/-- Witness for C9: the same stream source with the same seed list. -/
theorem c9_deterministic_witness :
    (∀ a b, gridOf (midpoint_displacement_2d streamNext 1 3 [9, 8, 7, 6]) a b =
        gridOf (midpoint_displacement_2d streamNext 1 3 [9, 8, 7, 6]) a b) ∧
      traceOf (midpoint_displacement_2d streamNext 1 3 [9, 8, 7, 6]) =
        traceOf (midpoint_displacement_2d streamNext 1 3 [9, 8, 7, 6]) :=
  c9_deterministic streamNext streamNext Eq
    (fun s1 s2 lo hi h => by subst h; exact ⟨rfl, rfl⟩) 1 3 [9, 8, 7, 6]
    [9, 8, 7, 6] rfl

/-- Claim C7: every region ever enqueued in a run with `n ≥ 1` (they are
exactly the processed regions, since the queue drains completely) is a
square whose side is a power of two with exponent at least 1, and whenever
a region spawns children, each child's side is exactly half the parent's
(hence strictly smaller) and each child's roughness is the floor of half
the parent's roughness. -/
theorem c7_region_invariants {σ : Type} (next : σ → Int → Int → Int × σ)
    (n : Nat) (rough : Int) (s : σ) (hn : 1 ≤ n) :
    ∀ r ∈ traceOf (midpoint_displacement_2d next n rough s),
      (r.x1 - r.x0 = r.y1 - r.y0 ∧ ∃ k, 1 ≤ k ∧ r.x1 - r.x0 = 2 ^ k) ∧
        ∀ c ∈ childrenOf r,
          2 * (c.y1 - c.y0) = r.y1 - r.y0 ∧ c.y1 - c.y0 < r.y1 - r.y0 ∧
            2 * (c.x1 - c.x0) = r.x1 - r.x0 ∧
            c.roughness = Int.fdiv r.roughness 2 := by
  obtain ⟨g, s', tr, heq⟩ := md2d_eq_some next n rough s
  rw [heq]
  simp only [traceOf]
  intro r hr
  obtain ⟨hx1, hy1, k, hk, hxe, hye⟩ := md2d_trace_good hn heq r hr
  have ht : 1 ≤ 2 ^ k := Nat.one_le_two_pow
  constructor
  · exact ⟨by omega, k, hk, by omega⟩
  · intro c hc
    rw [childrenOf] at hc
    by_cases hgt : r.y1 - r.y0 > 2
    · rw [if_pos hgt] at hc
      rcases k with _ | m
      · omega
      rcases m with _ | m
      · rw [pow_one] at hxe hye; omega
      have hpow : 2 ^ (m + 1 + 1) = 2 ^ (m + 1) + 2 ^ (m + 1) := by
        rw [pow_succ]; omega
      have ht1 : 1 ≤ 2 ^ (m + 1) := Nat.one_le_two_pow
      simp only [List.mem_cons, List.not_mem_nil, or_false] at hc
      rcases hc with rfl | rfl | rfl | rfl <;>
        exact ⟨by dsimp only; omega, by dsimp only; omega,
          by dsimp only; omega, rfl⟩
    · rw [if_neg hgt] at hc; simp at hc

/-- Witness for C7 at `n = 2`. -/
theorem c7_region_invariants_witness :
    1 ≤ 2 ∧ ∀ r ∈ traceOf (midpoint_displacement_2d streamNext 2 9 [1, 2, 3, 4]),
      (r.x1 - r.x0 = r.y1 - r.y0 ∧ ∃ k, 1 ≤ k ∧ r.x1 - r.x0 = 2 ^ k) ∧
        ∀ c ∈ childrenOf r,
          2 * (c.y1 - c.y0) = r.y1 - r.y0 ∧ c.y1 - c.y0 < r.y1 - r.y0 ∧
            2 * (c.x1 - c.x0) = r.x1 - r.x0 ∧
            c.roughness = Int.fdiv r.roughness 2 :=
  ⟨by decide, c7_region_invariants streamNext 2 9 [1, 2, 3, 4] (by decide)⟩

/-- Claim C8: in a run with `n ≥ 1`, every grid index read or written by
any processed region satisfies `row < 2^n + 1` and `col < 2^n + 1` (the
lower bound `0 ≤ row, col` holds because indices are naturals in the
model; the source's coordinates are likewise never negative, starting from
0 and moving inward), so no out-of-bounds access occurs. -/
theorem c8_all_accesses_in_bounds {σ : Type} (next : σ → Int → Int → Int × σ)
    (n : Nat) (rough : Int) (s : σ) (hn : 1 ≤ n) :
    ∀ r ∈ traceOf (midpoint_displacement_2d next n rough s),
      ∀ p ∈ readsOf r ++ writesOf r, p.1 < 2 ^ n + 1 ∧ p.2 < 2 ^ n + 1 := by
  obtain ⟨g, s', tr, heq⟩ := md2d_eq_some next n rough s
  rw [heq]
  simp only [traceOf]
  intro r hr p hp
  have := goodRegion_reads_writes_bound (md2d_trace_good hn heq r hr) p hp
  omega

/-- Witness for C8 at `n = 1`. -/
theorem c8_all_accesses_in_bounds_witness :
    1 ≤ 1 ∧ ∀ r ∈ traceOf (midpoint_displacement_2d streamNext 1 5 [1, 2, 3, 4]),
      ∀ p ∈ readsOf r ++ writesOf r, p.1 < 2 ^ 1 + 1 ∧ p.2 < 2 ^ 1 + 1 :=
  ⟨by decide, c8_all_accesses_in_bounds streamNext 1 5 [1, 2, 3, 4] (by decide)⟩

/-- Claim C10: for `n ≥ 1` the four corner cells of the output grid still
hold exactly the four seed draws written before the drain (in source
order: `(0,0)`, `(0, 2^n)`, `(2^n, 0)`, `(2^n, 2^n)`): no midpoint write
of any processed region targets a grid corner. -/
theorem c10_corners_preserved {σ : Type} (next : σ → Int → Int → Int × σ)
    (n : Nat) (rough : Int) (s : σ) (hn : 1 ≤ n) :
    gridOf (midpoint_displacement_2d next n rough s) 0 0 = (next s 0 256).1 ∧
      gridOf (midpoint_displacement_2d next n rough s) 0 (2 ^ n) =
        (next (next s 0 256).2 0 256).1 ∧
      gridOf (midpoint_displacement_2d next n rough s) (2 ^ n) 0 =
        (next (next (next s 0 256).2 0 256).2 0 256).1 ∧
      gridOf (midpoint_displacement_2d next n rough s) (2 ^ n) (2 ^ n) =
        (next (next (next (next s 0 256).2 0 256).2 0 256).2 0 256).1 := by
  obtain ⟨g, s', tr, heq⟩ := md2d_eq_some next n rough s
  have hgood := md2d_trace_good hn heq
  have heq' := heq
  simp only [midpoint_displacement_2d] at heq'
  have hframe := drainF_frame next _ _ _ _ _ _ _ heq'
  have hN : 2 ≤ 2 ^ n := by
    calc (2 : Nat) = 2 ^ 1 := by norm_num
    _ ≤ 2 ^ n := Nat.pow_le_pow_right (by norm_num) hn
  have hnc : ∀ a b : Nat, (a, b) ∈ cornerCells n → ∀ r ∈ tr, (a, b) ∉ writesOf r :=
    fun a b hab r hr hw => goodRegion_writes_not_corner (hgood r hr) (a, b) hw hab
  rw [heq]
  have hzn : ¬((0 : Nat) = 2 ^ n + 1 - 1) := by omega
  have hnn := eq_true (show 2 ^ n = 2 ^ n + 1 - 1 by omega)
  have hz2 : ¬((0 : Nat) = 2 ^ n) := by omega
  refine ⟨?_, ?_, ?_, ?_⟩
  · show g 0 0 = _
    rw [hframe 0 0 (hnc 0 0 (by simp [cornerCells]))]
    simp [setCell, hzn, hnn, hz2]
  · show g 0 (2 ^ n) = _
    rw [hframe 0 (2 ^ n) (hnc 0 (2 ^ n) (by simp [cornerCells]))]
    simp [setCell, hzn, hnn, hz2]
  · show g (2 ^ n) 0 = _
    rw [hframe (2 ^ n) 0 (hnc (2 ^ n) 0 (by simp [cornerCells]))]
    simp [setCell, hzn, hnn, hz2]
  · show g (2 ^ n) (2 ^ n) = _
    rw [hframe (2 ^ n) (2 ^ n) (hnc (2 ^ n) (2 ^ n) (by simp [cornerCells]))]
    simp [setCell, hzn, hnn, hz2]

/-- Witness for C10 at `n = 1` with seeds `10, 20, 30, 40`. -/
theorem c10_corners_preserved_witness :
    1 ≤ 1 ∧
      (gridOf (midpoint_displacement_2d streamNext 1 7 [10, 20, 30, 40]) 0 0 =
          (streamNext [10, 20, 30, 40] 0 256).1 ∧
        gridOf (midpoint_displacement_2d streamNext 1 7 [10, 20, 30, 40]) 0 (2 ^ 1) =
          (streamNext (streamNext [10, 20, 30, 40] 0 256).2 0 256).1 ∧
        gridOf (midpoint_displacement_2d streamNext 1 7 [10, 20, 30, 40]) (2 ^ 1) 0 =
          (streamNext (streamNext (streamNext [10, 20, 30, 40] 0 256).2 0 256).2
              0 256).1 ∧
        gridOf (midpoint_displacement_2d streamNext 1 7 [10, 20, 30, 40]) (2 ^ 1)
            (2 ^ 1) =
          (streamNext (streamNext (streamNext (streamNext [10, 20, 30, 40] 0
              256).2 0 256).2 0 256).2 0 256).1) :=
  ⟨by decide, c10_corners_preserved streamNext 1 7 [10, 20, 30, 40] (by decide)⟩

/-- Claim C1, counterexample. The claim says no two regions ever write the
same `(row, col)` and every non-corner cell is written exactly once. At
`n = 2` the cell `(1, 2)` (a non-corner cell) is written twice over the
run: it is the right midpoint of the second dequeued region `(0,0,2,2)`
and the left midpoint of the third dequeued region `(2,0,4,2)` — two
different regions, and the later write overwrites the earlier one. -/
theorem c1_counterexample :
    ((traceOf (midpoint_displacement_2d streamNext 2 0 [0, 0, 0, 0])).flatMap
        writesOf).count (1, 2) = 2 ∧
      (1, 2) ∈ writesOf ((traceOf (midpoint_displacement_2d streamNext 2 0
        [0, 0, 0, 0])).getD 1 ⟨0, 0, 0, 0, 0⟩) ∧
      (1, 2) ∈ writesOf ((traceOf (midpoint_displacement_2d streamNext 2 0
        [0, 0, 0, 0])).getD 2 ⟨0, 0, 0, 0, 0⟩) ∧
      (traceOf (midpoint_displacement_2d streamNext 2 0 [0, 0, 0, 0])).getD 1
          ⟨0, 0, 0, 0, 0⟩ ≠
        (traceOf (midpoint_displacement_2d streamNext 2 0 [0, 0, 0, 0])).getD 2
          ⟨0, 0, 0, 0, 0⟩ ∧
      (1, 2) ∉ cornerCells 2 := by
  decide

/-- Claim C1, amended: every non-corner cell of the final grid is written
at least once over the run — but not exactly once: edge-midpoint cells on
the seam between two adjacent same-level regions are written by both (as
the counterexample at `n = 2`, cell `(1, 2)` shows), the later write
overwriting the earlier. -/
theorem c1_amended_nonCorner_written {σ : Type} (next : σ → Int → Int → Int × σ)
    (n : Nat) (rough : Int) (s : σ) (hn : 1 ≤ n) (a b : Nat)
    (ha : a ≤ 2 ^ n) (hb : b ≤ 2 ^ n) (hc : (a, b) ∉ cornerCells n) :
    ∃ r ∈ traceOf (midpoint_displacement_2d next n rough s), (a, b) ∈ writesOf r := by
  obtain ⟨g, s', tr, heq⟩ := md2d_eq_some next n rough s
  have heq' := heq
  simp only [midpoint_displacement_2d] at heq'
  have hw := drainF_trace_writes next _ _ _ _ _ _ _ heq' (a, b)
  rw [heq]
  simp only [traceOf]
  rw [hw]
  refine ⟨⟨0, 0, 2 ^ n + 1 - 1, 2 ^ n + 1 - 1, rough⟩, by simp, ?_⟩
  have hroot : (⟨0, 0, 2 ^ n + 1 - 1, 2 ^ n + 1 - 1, rough⟩ : Region) =
      ⟨0, 0, 0 + 2 ^ n, 0 + 2 ^ n, rough⟩ := by
    simp [Region.mk.injEq]
  rw [hroot, descWrites_cover n hn 0 0 rough a b]
  simp only [cornerCells, List.mem_cons, List.not_mem_nil, or_false,
    Prod.mk.injEq, not_or] at hc
  omega

/-- Witness for the amended C1 at `n = 2`, cell `(1, 2)`. -/
theorem c1_amended_nonCorner_written_witness :
    (1 ≤ 2 ∧ (1 : Nat) ≤ 2 ^ 2 ∧ (2 : Nat) ≤ 2 ^ 2 ∧
        ((1 : Nat), (2 : Nat)) ∉ cornerCells 2) ∧
      ∃ r ∈ traceOf (midpoint_displacement_2d streamNext 2 0 [0, 0, 0, 0]),
        ((1 : Nat), (2 : Nat)) ∈ writesOf r :=
  ⟨⟨by decide, by decide, by decide, by decide⟩,
    c1_amended_nonCorner_written streamNext 2 0 [0, 0, 0, 0] (by decide) 1 2
      (by decide) (by decide) (by decide)⟩

/-- Claim C2: when a region is dequeued, each of its four corner cells is
either one of the four originally seeded grid corners or was written
earlier in FIFO order by an already-processed region — so no region ever
reads a cell that no write (seed or midpoint) has touched. -/
theorem c2_corner_dependencies {σ : Type} (next : σ → Int → Int → Int × σ)
    (n : Nat) (rough : Int) (s : σ) (_hn : 1 ≤ n) (tr : List Region)
    (htr : traceOf (midpoint_displacement_2d next n rough s) = tr) :
    ∀ i (hi : i < tr.length), ∀ p ∈ readsOf (tr.get ⟨i, hi⟩),
      p ∈ cornerCells n ∨
        ∃ j, j < i ∧ ∃ hj : j < tr.length, p ∈ writesOf (tr.get ⟨j, hj⟩) := by
  obtain ⟨g, s', tr0, heq⟩ := md2d_eq_some next n rough s
  have heq' := heq
  simp only [midpoint_displacement_2d] at heq'
  subst htr
  rw [heq]
  simp only [traceOf]
  apply drainF_corner_dep next _ _ _ _ _ _ _ (cornerCells n) heq'
  intro r hr p hp
  simp only [List.mem_cons, List.not_mem_nil, or_false] at hr
  subst hr
  simp only [readsOf, List.mem_cons, List.not_mem_nil, or_false] at hp
  rcases hp with rfl | rfl | rfl | rfl <;> simp [cornerCells]

/-- Witness for C2 at `n = 1`. -/
theorem c2_corner_dependencies_witness :
    1 ≤ 1 ∧
      ∀ i (hi : i <
          (traceOf (midpoint_displacement_2d streamNext 1 5 [1, 2, 3, 4])).length),
        ∀ p ∈ readsOf ((traceOf (midpoint_displacement_2d streamNext 1 5
            [1, 2, 3, 4])).get ⟨i, hi⟩),
          p ∈ cornerCells 1 ∨
            ∃ j, j < i ∧ ∃ hj : j <
              (traceOf (midpoint_displacement_2d streamNext 1 5 [1, 2, 3, 4])).length,
              p ∈ writesOf ((traceOf (midpoint_displacement_2d streamNext 1 5
                [1, 2, 3, 4])).get ⟨j, hj⟩) :=
  ⟨by decide,
    c2_corner_dependencies streamNext 1 5 [1, 2, 3, 4] (by decide) _ rfl⟩

end MidpointDisplacement
